import Mathlib

/-!
# Verification of the notebook cell chat controller

Shallow embedding of `src/vs/workbench/contrib/notebook/browser/view/cellParts/chat/cellChatController.ts`
(the `NotebookCellChatController` and `EditStrategy` classes), together with
theorems settling the specification claims about the progressive-edit /
undo-coalescing state machine.

Conventions of the embedding:
* Machine integers of the source are modelled as `Nat`; millisecond durations
  and rates as `ℚ` (the source uses JS numbers only for division here).
* The mutable document (`ITextModel`) is modelled as an explicit state record;
  the undo history is the list of alternative version ids reachable by
  successive `undo()` calls, most recent first.
* Calls that only emit effects (push an undo stop, apply edits) are modelled
  as functions producing an event trace.
-/

/-- `Position` from `vs/editor/common/core/position`: a (lineNumber, column) pair. -/
structure Position where
  lineNumber : Nat
  column : Nat
deriving DecidableEq

/-- Modelled from the spec: the editor core's strict lexicographic order on
positions (`Position.isBefore`), used by the cursor-state computer; the spec
speaks of "the edit with the greatest end offset". -/
def Position.isBefore (a b : Position) : Bool :=
  if a.lineNumber < b.lineNumber then true
  else if b.lineNumber < a.lineNumber then false
  else a.column < b.column

/-- `Range` from the editor core: only the fields the excerpt reads. -/
structure Range where
  startLineNumber : Nat
  startColumn : Nat
  endLineNumber : Nat
  endColumn : Nat
deriving DecidableEq

/-- `Range.getEndPosition` from the editor core. -/
def Range.getEndPosition (r : Range) : Position :=
  ⟨r.endLineNumber, r.endColumn⟩

/-- A `Selection` collapsed from positions; `Selection.fromPositions p` with a
single argument yields the empty selection at `p`. -/
structure Selection where
  selectionStart : Position
  position : Position
deriving DecidableEq

/-- `Selection.fromPositions` (single-argument form used by the source). -/
def Selection.fromPositions (p : Position) : Selection :=
  ⟨p, p⟩

/-- `ISingleEditOperation`: a range plus replacement text (`null` text ↦ `none`). -/
structure SingleEditOperation where
  range : Range
  text : Option String
deriving DecidableEq

/-- Events observable on the document while a session runs: undo-stop
boundaries pushed into the undo history, and applied edit operations. -/
inductive DocEvent where
  | undoStop
  | editApplied
deriving DecidableEq

/-- Trace semantics of `EditStrategy.makeProgressiveChanges` (lines 381-394):
`++this._editCount === 1` pushes one undo stop, then each edit of the batch is
applied (via `performAsyncTextEdit`) in array order.  Returns the new
`_editCount` and the emitted document events. -/
def EditStrategy.makeProgressiveChangesTrace (editCount : Nat)
    (edits : List SingleEditOperation) : Nat × List DocEvent :=
  let ec := editCount + 1
  (ec, (if ec = 1 then [DocEvent.undoStop] else []) ++
    edits.map (fun _ => DocEvent.editApplied))

/-- Trace semantics of `EditStrategy.makeChanges` (lines 396-411): same
one-time undo stop, then a single atomic `executeEdits` application. -/
def EditStrategy.makeChangesTrace (editCount : Nat)
    (edits : List SingleEditOperation) : Nat × List DocEvent :=
  let ec := editCount + 1
  (ec, (if ec = 1 then [DocEvent.undoStop] else []) ++ [DocEvent.editApplied])

/-- A call into the strategy: either of the two edit-applying methods. -/
inductive StratCall where
  | progressive (edits : List SingleEditOperation)
  | atomic (edits : List SingleEditOperation)
deriving DecidableEq

/-- Run an arbitrary interleaving of `makeProgressiveChanges` / `makeChanges`
calls against one strategy instance, threading `_editCount` and concatenating
the document-event traces. -/
def EditStrategy.runCalls (editCount : Nat) : List StratCall → Nat × List DocEvent
  | [] => (editCount, [])
  | c :: cs =>
    let step := match c with
      | StratCall.progressive es => EditStrategy.makeProgressiveChangesTrace editCount es
      | StratCall.atomic es => EditStrategy.makeChangesTrace editCount es
    let rest := EditStrategy.runCalls step.1 cs
    (rest.1, step.2 ++ rest.2)

/-- The cursor-state computer built inside `EditStrategy.makeChanges`
(lines 397-404): fold over the applied edit operations keeping the greatest
end position (`last = !last || last.isBefore(end) ? end : last`), returning
`null` for an empty list and otherwise one collapsed selection at that
position. -/
def cursorFoldStep (last : Option Position) (edit : SingleEditOperation) :
    Option Position :=
  match last with
  | none => some edit.range.getEndPosition
  | some l =>
    if l.isBefore edit.range.getEndPosition then some edit.range.getEndPosition
    else some l

/-- The full cursor-state computer: `return last && [Selection.fromPositions(last)]`. -/
def cursorStateComputerAndInlineDiffCollection
    (undoEdits : List SingleEditOperation) : Option (List Selection) :=
  let last := undoEdits.foldl cursorFoldStep none
  last.map (fun l => [Selection.fromPositions l])

/-- The document (`ITextModel`) state read and mutated by `EditStrategy.cancel`:
disposed flag, current alternative version id, and the alternative version ids
reachable by successive `undo()` calls (most recent first); `canUndo()` is the
stack being nonempty. -/
structure TextModel where
  disposed : Bool
  altVersionId : Nat
  undoStack : List Nat
deriving DecidableEq

/-- `ITextModel.canUndo`. -/
def TextModel.canUndo (m : TextModel) : Bool :=
  !m.undoStack.isEmpty

/-- The two version markers `EditStrategy.cancel` reads off the `Session`:
the baseline captured at session start and the optional intermediate snapshot. -/
structure SessionVersionMarkers where
  textModelNAltVersion : Nat
  textModelNSnapshotAltVersion : Option Nat
deriving DecidableEq

/-- `targetAltVersion = textModelNSnapshotAltVersion ?? textModelNAltVersion`
(line 432). -/
def SessionVersionMarkers.targetAltVersion (s : SessionVersionMarkers) : Nat :=
  s.textModelNSnapshotAltVersion.getD s.textModelNAltVersion

/-- The undo loop of `EditStrategy.cancel` (lines 433-435):
`while (targetAltVersion < modelN.getAlternativeVersionId() && modelN.canUndo()) modelN.undo()`.
Recursion is on the undo stack, which each `undo()` pops. -/
def cancelLoop (target : Nat) (altVersionId : Nat) : List Nat → Nat × List Nat
  | [] => (altVersionId, [])
  | v :: rest =>
    if target < altVersionId then cancelLoop target v rest
    else (altVersionId, v :: rest)

/-- `EditStrategy.cancel` (lines 426-436): no-op on a disposed model, else
undo back towards the target alternative version. -/
def EditStrategy.cancel (s : SessionVersionMarkers) (m : TextModel) : TextModel :=
  if m.disposed then m
  else
    let r := cancelLoop s.targetAltVersion m.altVersionId m.undoStack
    { m with altVersionId := r.1, undoStack := r.2 }

/-- Modelled from the spec: the `MovingAverage` from `vs/base/common/numbers`
(not part of this excerpt), the "exponentially-weighted estimate of
time-per-batch"; modelled as an EWMA with weight 1/2.  Only the ordering of
`update` against reading `value` matters for the claims, not the weight. -/
structure MovingAverage where
  val : ℚ
deriving DecidableEq

/-- Initial value of the moving average (before any sample). -/
def MovingAverage.initial : MovingAverage :=
  ⟨0⟩

/-- `MovingAverage.update`: incorporate one sample into the estimate. -/
def MovingAverage.update (m : MovingAverage) (sample : ℚ) : MovingAverage :=
  ⟨m.val + (sample - m.val) / 2⟩

/-- One progress chunk carrying edits, as seen by the `AsyncProgress` handler
in `acceptInput` (lines 259-276): the stopwatch reading at its arrival
(`progressiveEditsClock.elapsed()`, the inter-arrival time in milliseconds)
and its `editsShouldBeInstant` flag. -/
structure ProgressChunk where
  sampleMs : ℚ
  editsShouldBeInstant : Bool
deriving DecidableEq

/-- State threaded through the progress handler: the rolling average, and the
pacing duration handed to `_makeChanges` for each queued batch, in order
(`none` for an instant batch, which gets `opts === undefined`). -/
structure ProgressHandlerState where
  avg : MovingAverage
  queuedDurations : List (Option ℚ)
deriving DecidableEq

/-- The edits branch of the progress handler (lines 259-276):
`progressiveEditsAvgDuration.update(progressiveEditsClock.elapsed())` runs
first, then the batch is queued with
`{ duration: progressiveEditsAvgDuration.value, ... }` (or no options when
instant). -/
def handleEditsChunk (st : ProgressHandlerState) (c : ProgressChunk) :
    ProgressHandlerState :=
  let avg := st.avg.update c.sampleMs
  { avg := avg,
    queuedDurations := st.queuedDurations ++
      [if c.editsShouldBeInstant then none else some avg.val] }

/-- The pacing duration used for each received batch, in arrival order. -/
def pacingDurations (chunks : List ProgressChunk) : List (Option ℚ) :=
  (chunks.foldl handleEditsChunk ⟨MovingAverage.initial, []⟩).queuedDurations

/-- The moving-average value after incorporating a list of samples in order. -/
def avgValueAfter (samples : List ℚ) : ℚ :=
  (samples.foldl MovingAverage.update MovingAverage.initial).val

/-- The reveal speed computed per edit by `EditStrategy.makeProgressiveChanges`
(lines 387-390): `durationInSec = opts.duration / 1000`;
`speed = countWords(edit.text ?? '') / durationInSec`.  `countWords` (from
`chatWordCounter`, outside the excerpt) is abstracted by taking the word count
as the argument. -/
def progressiveEditSpeed (wordCount : Nat) (duration : ℚ) : ℚ :=
  let durationInSec := duration / 1000
  (wordCount : ℚ) / durationInSec

/-- `SaveReason` from `vs/workbench/common/editor`. -/
inductive SaveReason where
  | EXPLICIT
  | AUTO
  | FOCUS_CHANGE
  | WINDOW_CHANGE
deriving DecidableEq

/-- The untitled text model possibly attached to a `ReplyResponse`: only the
flags `EditStrategy.apply` reads. -/
structure UntitledModel where
  disposed : Bool
  dirty : Bool
deriving DecidableEq

/-- The response of the session's last exchange as far as `apply` inspects it:
a `ReplyResponse` (with its optional untitled text model) or any other
response object. -/
inductive ResponseKind where
  | reply (untitledTextModel : Option UntitledModel)
  | otherResponse
deriving DecidableEq

/-- Effects of `EditStrategy.apply`: whether the closing undo stop was pushed,
and the save (with reason) performed on the untitled model, if any. -/
structure ApplyEffects where
  pushedUndoStop : Bool
  saved : Option SaveReason
deriving DecidableEq

/-- `EditStrategy.apply` (lines 413-424): push a closing undo stop iff
`_editCount > 0`; then, only when the last exchange's response is a
`ReplyResponse` whose `untitledTextModel` exists, is not disposed and is
dirty, save it with `SaveReason.EXPLICIT`. -/
def EditStrategy.apply (editCount : Nat)
    (lastExchangeResponse : Option ResponseKind) : ApplyEffects :=
  let pushed := decide (0 < editCount)
  match lastExchangeResponse with
  | some (ResponseKind.reply (some u)) =>
    if !u.disposed && u.dirty then ⟨pushed, some SaveReason.EXPLICIT⟩
    else ⟨pushed, none⟩
  | _ => ⟨pushed, none⟩

/-- `NotebookCellChatController._makeChanges` (lines 342-369), as a function of
the worker's answer: when `computeMoreMinimalEdits` returns an empty list the
method returns with no effect; otherwise `actualEdits` is the minimal list
when there are no pacing options and the worker returned one, else the
original edits, and the strategy is invoked (progressively when pacing options
are present).  Returns the new `_editCount` and the document events. -/
def ctrlMakeChanges (editCount : Nat) (edits : List SingleEditOperation)
    (moreMinimalEdits : Option (List SingleEditOperation))
    (opts : Option ℚ) : Nat × List DocEvent :=
  if moreMinimalEdits = some [] then (editCount, [])
  else
    let actualEdits := match opts, moreMinimalEdits with
      | none, some m => m
      | _, _ => edits
    match opts with
    | some _ => EditStrategy.makeProgressiveChangesTrace editCount actualEdits
    | none => EditStrategy.makeChangesTrace editCount actualEdits

/-- Controller-level events emitted by `acceptInput` after the request has
been issued (lines 229-303). -/
inductive CtrlEvent where
  | setHasActiveRequest (b : Bool)
  | updateProgress (b : Bool)
  | waitQueueDrained
  | progressDrained
  | makeChangesCall (batchIndex : Nat) (paced : Bool)
  | updateInfoCleared
  | updateToolbarShown
  | throwError
deriving DecidableEq

/-- How the awaited provider response resolves at line 280. -/
inductive ProviderReply where
  | rejected
  | nullReply
  | reply (allLocalEditsLen : Nat)
deriving DecidableEq

/-- Event trace of `acceptInput` from setting the active-request flags
(lines 229-230) through completion (line 303), as a function of the
provider outcome: a rejected promise throws at the `await` on line 280,
before the drain waits; a null reply resets the flags and returns
(lines 288-292); otherwise the remaining batches
`allLocalEdits[progressEdits.length ..]` are applied atomically
(lines 296-298) and the flags are reset (lines 299-302). -/
def acceptInputEvents (queueSize progressEditsLen : Nat)
    (r : ProviderReply) : List CtrlEvent :=
  [CtrlEvent.setHasActiveRequest true, CtrlEvent.updateProgress true] ++
  match r with
  | ProviderReply.rejected => [CtrlEvent.throwError]
  | ProviderReply.nullReply =>
    (if 0 < queueSize then [CtrlEvent.waitQueueDrained] else []) ++
    [CtrlEvent.progressDrained,
     CtrlEvent.setHasActiveRequest false, CtrlEvent.updateProgress false]
  | ProviderReply.reply len =>
    (if 0 < queueSize then [CtrlEvent.waitQueueDrained] else []) ++
    [CtrlEvent.progressDrained] ++
    (List.range (len - progressEditsLen)).map
      (fun k => CtrlEvent.makeChangesCall (progressEditsLen + k) false) ++
    [CtrlEvent.setHasActiveRequest false, CtrlEvent.updateProgress false,
     CtrlEvent.updateInfoCleared, CtrlEvent.updateToolbarShown]

/-- The value of the has-active-request context key after a trace. -/
def finalHasActiveRequest (evs : List CtrlEvent) : Bool :=
  evs.foldl (fun acc e => match e with
    | CtrlEvent.setHasActiveRequest b => b
    | _ => acc) false

/-- The widget progress-indicator state after a trace. -/
def finalWidgetProgress (evs : List CtrlEvent) : Bool :=
  evs.foldl (fun acc e => match e with
    | CtrlEvent.updateProgress b => b
    | _ => acc) false

/-- Whether an event is an application of an edit batch via `_makeChanges`. -/
def CtrlEvent.isMakeChangesCall : CtrlEvent → Bool
  | CtrlEvent.makeChangesCall _ _ => true
  | _ => false

/-- Spec-side restatement of the save condition of claim C6: the last
exchange's response carries an untitled document artifact that is not
disposed and still dirty. -/
def wantsSaveUntitled : Option ResponseKind → Bool
  | some (ResponseKind.reply (some u)) => !u.disposed && u.dirty
  | _ => false

/-- Proof helper: the pacing durations produced from a given starting average,
computed chunk by chunk (left-to-right recursion mirroring `handleEditsChunk`). -/
def durationsFrom (avg : MovingAverage) : List ProgressChunk → List (Option ℚ)
  | [] => []
  | c :: cs =>
    let avg2 := avg.update c.sampleMs
    (if c.editsShouldBeInstant then none else some avg2.val) :: durationsFrom avg2 cs

/-!
## Theorems

Helper lemmas first, then one theorem per claim (with witnesses and
counterexamples where required).
-/

theorem isBefore_iff (a b : Position) :
    a.isBefore b = true ↔
      (a.lineNumber < b.lineNumber ∨
        (a.lineNumber = b.lineNumber ∧ a.column < b.column)) := by
  simp only [Position.isBefore]
  split_ifs with h1 h2 <;> simp <;> omega

theorem isBefore_false_iff (a b : Position) :
    a.isBefore b = false ↔
      (b.lineNumber < a.lineNumber ∨
        (a.lineNumber = b.lineNumber ∧ b.column ≤ a.column)) := by
  rw [← Bool.not_eq_true, isBefore_iff]
  constructor
  · intro h; omega
  · intro h; omega

theorem isBefore_false_trans (a b c : Position)
    (hab : a.isBefore b = false) (hbc : b.isBefore c = false) :
    a.isBefore c = false := by
  rw [isBefore_false_iff] at *
  omega

theorem isBefore_false_of_isBefore (a b : Position)
    (h : a.isBefore b = true) : b.isBefore a = false := by
  rw [isBefore_iff] at h
  rw [isBefore_false_iff]
  omega

theorem isBefore_self_false (a : Position) : a.isBefore a = false := by
  rw [isBefore_false_iff]
  omega

theorem cancelLoop_stop (target a : Nat) (st : List Nat) (h : a ≤ target) :
    cancelLoop target a st = (a, st) := by
  cases st with
  | nil => rfl
  | cons v rest =>
    unfold cancelLoop
    rw [if_neg (by omega)]

theorem cancelLoop_post (target a : Nat) (st : List Nat) :
    (cancelLoop target a st).1 ≤ target ∨ (cancelLoop target a st).2 = [] := by
  induction st generalizing a with
  | nil => right; rfl
  | cons v rest ih =>
    unfold cancelLoop
    by_cases h : target < a
    · rw [if_pos h]; exact ih v
    · rw [if_neg h]; left; omega

/-- C2 counterexample: the claim says `cancel()` undoes until the version id
is at or below the *earlier* (minimum) of the baseline marker and the snapshot
marker.  With baseline 1, snapshot 3, current version 5 and undo history
[4,3,2,1], the code stops at version 3 (the snapshot) although further undo is
available and 3 is above the minimum 1. -/
theorem cancel_min_marker_counterexample :
    EditStrategy.cancel ⟨1, some 3⟩ ⟨false, 5, [4, 3, 2, 1]⟩ =
      ⟨false, 3, [2, 1]⟩ ∧
    ¬((EditStrategy.cancel ⟨1, some 3⟩ ⟨false, 5, [4, 3, 2, 1]⟩).altVersionId ≤
        min 1 3) ∧
    (EditStrategy.cancel ⟨1, some 3⟩ ⟨false, 5, [4, 3, 2, 1]⟩).canUndo = true := by
  decide

/-- C2 (amended): `cancel()` is a no-op on a disposed document; otherwise it
undoes repeatedly until the alternative version id is at or below the target
marker — the snapshot marker when one exists, else the baseline marker — or
until no further undo is available, and it performs no undo at all when the
version is already at or below that target. -/
theorem cancel_undoes_to_snapshot_or_baseline (s : SessionVersionMarkers)
    (m : TextModel) :
    (m.disposed = true → EditStrategy.cancel s m = m) ∧
    (m.disposed = false →
      ((EditStrategy.cancel s m).altVersionId ≤ s.targetAltVersion ∨
        (EditStrategy.cancel s m).canUndo = false) ∧
      (m.altVersionId ≤ s.targetAltVersion → EditStrategy.cancel s m = m)) := by
  obtain ⟨d, a, st⟩ := m
  refine ⟨fun hd => ?_, fun hd => ⟨?_, fun hle => ?_⟩⟩
  · simp only at hd
    subst hd
    simp [EditStrategy.cancel]
  · simp only at hd
    subst hd
    simp only [EditStrategy.cancel, Bool.false_eq_true, if_false]
    rcases cancelLoop_post s.targetAltVersion a st with h | h
    · left; exact h
    · right; simp [TextModel.canUndo, h]
  · simp only at hd hle
    subst hd
    simp [EditStrategy.cancel, cancelLoop_stop _ _ _ hle]

/-- C2 amended witness: concrete run with baseline 1, snapshot 3. -/
theorem cancel_undoes_to_snapshot_or_baseline_witness :
    ((false = true → EditStrategy.cancel ⟨1, some 3⟩ ⟨false, 5, [4, 3, 2, 1]⟩ =
        ⟨false, 5, [4, 3, 2, 1]⟩) ∧
      (false = false →
        ((EditStrategy.cancel ⟨1, some 3⟩ ⟨false, 5, [4, 3, 2, 1]⟩).altVersionId ≤
            SessionVersionMarkers.targetAltVersion ⟨1, some 3⟩ ∨
          (EditStrategy.cancel ⟨1, some 3⟩ ⟨false, 5, [4, 3, 2, 1]⟩).canUndo = false) ∧
        ((5 : Nat) ≤ SessionVersionMarkers.targetAltVersion ⟨1, some 3⟩ →
          EditStrategy.cancel ⟨1, some 3⟩ ⟨false, 5, [4, 3, 2, 1]⟩ =
            ⟨false, 5, [4, 3, 2, 1]⟩))) :=
  cancel_undoes_to_snapshot_or_baseline ⟨1, some 3⟩ ⟨false, 5, [4, 3, 2, 1]⟩

/-- C7: `cancel()` is idempotent — it is a no-op when the version id is already
at or below the target marker, and running it twice equals running it once. -/
theorem cancel_idempotent (s : SessionVersionMarkers) (m : TextModel) :
    (m.altVersionId ≤ s.targetAltVersion → EditStrategy.cancel s m = m) ∧
    EditStrategy.cancel s (EditStrategy.cancel s m) = EditStrategy.cancel s m := by
  obtain ⟨d, a, st⟩ := m
  constructor
  · intro hle
    simp only at hle
    cases d
    · simp [EditStrategy.cancel, cancelLoop_stop _ _ _ hle]
    · simp [EditStrategy.cancel]
  · cases d
    · have key : cancelLoop s.targetAltVersion
          (cancelLoop s.targetAltVersion a st).1
          (cancelLoop s.targetAltVersion a st).2 =
          cancelLoop s.targetAltVersion a st := by
        rcases cancelLoop_post s.targetAltVersion a st with h | h
        · rw [cancelLoop_stop _ _ _ h]
        · rw [h]
          rw [show cancelLoop s.targetAltVersion
              (cancelLoop s.targetAltVersion a st).1 [] =
              ((cancelLoop s.targetAltVersion a st).1, []) from rfl]
          rw [← h]
      simp [EditStrategy.cancel, key]
    · simp [EditStrategy.cancel]

/-- C7 witness: a document already at the baseline is untouched, twice. -/
theorem cancel_idempotent_witness :
    (((3 : Nat) ≤ SessionVersionMarkers.targetAltVersion ⟨5, none⟩ →
        EditStrategy.cancel ⟨5, none⟩ ⟨false, 3, [2, 1]⟩ = ⟨false, 3, [2, 1]⟩) ∧
      EditStrategy.cancel ⟨5, none⟩
          (EditStrategy.cancel ⟨5, none⟩ ⟨false, 3, [2, 1]⟩) =
        EditStrategy.cancel ⟨5, none⟩ ⟨false, 3, [2, 1]⟩) ∧
    EditStrategy.cancel ⟨5, none⟩ ⟨false, 3, [2, 1]⟩ = ⟨false, 3, [2, 1]⟩ :=
  ⟨cancel_idempotent ⟨5, none⟩ ⟨false, 3, [2, 1]⟩,
    (cancel_idempotent ⟨5, none⟩ ⟨false, 3, [2, 1]⟩).1 (by decide)⟩

/-- C10: when the editor worker minimizes an incoming batch to the empty list,
`_makeChanges` returns early: the document receives no events (no edit, no
undo stop) and the session's `_editCount` is unchanged, so the one-time
undo-stop trigger is not consumed. -/
theorem ctrlMakeChanges_empty_minimal_noop (editCount : Nat)
    (edits : List SingleEditOperation) (opts : Option ℚ) :
    ctrlMakeChanges editCount edits (some []) opts = (editCount, []) := by
  simp [ctrlMakeChanges]

/-- C6: `apply` pushes the closing undo stop iff at least one edit call was
made (`_editCount > 0`), and saves — always with `SaveReason.EXPLICIT` — iff
the last exchange's response is a reply carrying an untitled text model that
is neither disposed nor clean; otherwise no save happens. -/
theorem apply_boundary_and_save_policy (editCount : Nat)
    (resp : Option ResponseKind) :
    ((EditStrategy.apply editCount resp).pushedUndoStop = true ↔ 0 < editCount) ∧
    (EditStrategy.apply editCount resp).saved =
      (if wantsSaveUntitled resp then some SaveReason.EXPLICIT else none) := by
  constructor
  · rcases resp with _ | rk
    · simp [EditStrategy.apply]
    · rcases rk with u | _
      · rcases u with _ | ⟨ud, dy⟩
        · simp [EditStrategy.apply]
        · cases ud <;> cases dy <;> simp [EditStrategy.apply]
      · simp [EditStrategy.apply]
  · rcases resp with _ | rk
    · rfl
    · rcases rk with u | _
      · rcases u with _ | ⟨ud, dy⟩
        · rfl
        · cases ud <;> cases dy <;> rfl
      · rfl

/-- C8: the progressive reveal speed is exactly word count divided by the
duration converted from milliseconds to seconds, with no clamping: the rate
formula is exact, it is unbounded above (no ceiling), and it reaches zero on
an empty text (no positive floor). -/
theorem progressiveEditSpeed_formula_unclamped :
    (∀ (wc : Nat) (dur : ℚ),
      progressiveEditSpeed wc dur = (wc : ℚ) * 1000 / dur) ∧
    (∀ B : ℚ, ∃ (wc : Nat) (dur : ℚ),
      0 < dur ∧ B < progressiveEditSpeed wc dur) ∧
    (∃ (wc : Nat) (dur : ℚ), 0 < dur ∧ progressiveEditSpeed wc dur = 0) := by
  have hformula : ∀ (wc : Nat) (dur : ℚ),
      progressiveEditSpeed wc dur = (wc : ℚ) * 1000 / dur := by
    intro wc dur
    simp only [progressiveEditSpeed]
    rw [div_div_eq_mul_div]
  refine ⟨hformula, fun B => ?_, ⟨0, 1000, by norm_num, by rw [hformula]; norm_num⟩⟩
  obtain ⟨wc, hwc⟩ := exists_nat_gt B
  refine ⟨wc, 1000, by norm_num, ?_⟩
  rw [hformula]
  have : (wc : ℚ) * 1000 / 1000 = (wc : ℚ) := by norm_num
  rw [this]
  exact hwc

theorem runCalls_no_undoStop_of_pos (cs : List StratCall) (editCount : Nat)
    (h : 0 < editCount) :
    DocEvent.undoStop ∉ (EditStrategy.runCalls editCount cs).2 := by
  induction cs generalizing editCount with
  | nil => simp [EditStrategy.runCalls]
  | cons c cs ih =>
    have hne : ¬(editCount + 1 = 1) := by omega
    cases c with
    | progressive es =>
      simp only [EditStrategy.runCalls, EditStrategy.makeProgressiveChangesTrace,
        List.mem_append, List.mem_map, hne, if_false, List.nil_append]
      rintro (⟨e, _, he⟩ | hmem)
      · exact DocEvent.noConfusion he
      · exact ih (editCount + 1) (by omega) hmem
    | atomic es =>
      simp only [EditStrategy.runCalls, EditStrategy.makeChangesTrace,
        List.mem_append, List.mem_singleton, hne, if_false, List.nil_append]
      rintro (he | hmem)
      · exact DocEvent.noConfusion he
      · exact ih (editCount + 1) (by omega) hmem

/-- C1: across any nonempty interleaving of `makeProgressiveChanges` and
`makeChanges` calls on one session, the document trace starts with exactly one
undo stop — pushed before the first applied edit — and no undo stop ever
occurs again later in the session. -/
theorem editStrategy_single_undo_stop_before_first_edit (cs : List StratCall)
    (h : cs ≠ []) :
    ∃ rest, (EditStrategy.runCalls 0 cs).2 = DocEvent.undoStop :: rest ∧
      DocEvent.undoStop ∉ rest ∧
      (EditStrategy.runCalls 0 cs).2.count DocEvent.undoStop = 1 := by
  match cs with
  | [] => exact absurd rfl h
  | c :: cs =>
    have hrest : DocEvent.undoStop ∉ (EditStrategy.runCalls 1 cs).2 :=
      runCalls_no_undoStop_of_pos cs 1 (by omega)
    cases c with
    | progressive es =>
      refine ⟨es.map (fun _ => DocEvent.editApplied) ++ (EditStrategy.runCalls 1 cs).2,
        ?_, ?_, ?_⟩
      · simp [EditStrategy.runCalls, EditStrategy.makeProgressiveChangesTrace]
      · simp only [List.mem_append, List.mem_map]
        rintro (⟨e, _, he⟩ | hmem)
        · exact DocEvent.noConfusion he
        · exact hrest hmem
      · have heq : (EditStrategy.runCalls 0 (StratCall.progressive es :: cs)).2 =
            DocEvent.undoStop ::
              (es.map (fun _ => DocEvent.editApplied) ++ (EditStrategy.runCalls 1 cs).2) := by
          simp [EditStrategy.runCalls, EditStrategy.makeProgressiveChangesTrace]
        rw [heq, List.count_cons_self, List.count_eq_zero.2]
        · intro hmem
          rcases List.mem_append.1 hmem with hmem | hmem
          · rcases List.mem_map.1 hmem with ⟨e, _, he⟩
            exact DocEvent.noConfusion he
          · exact hrest hmem
    | atomic es =>
      refine ⟨[DocEvent.editApplied] ++ (EditStrategy.runCalls 1 cs).2, ?_, ?_, ?_⟩
      · simp [EditStrategy.runCalls, EditStrategy.makeChangesTrace]
      · simp only [List.mem_append, List.mem_singleton]
        rintro (he | hmem)
        · exact DocEvent.noConfusion he
        · exact hrest hmem
      · have heq : (EditStrategy.runCalls 0 (StratCall.atomic es :: cs)).2 =
            DocEvent.undoStop ::
              ([DocEvent.editApplied] ++ (EditStrategy.runCalls 1 cs).2) := by
          simp [EditStrategy.runCalls, EditStrategy.makeChangesTrace]
        rw [heq, List.count_cons_self, List.count_eq_zero.2]
        · intro hmem
          rcases List.mem_append.1 hmem with hmem | hmem
          · rcases List.mem_singleton.1 hmem with he
            exact DocEvent.noConfusion he
          · exact hrest hmem

/-- C1 witness: one atomic call followed by one progressive call. -/
theorem editStrategy_single_undo_stop_witness :
    ([StratCall.atomic [⟨⟨1, 1, 1, 5⟩, some "x"⟩],
      StratCall.progressive [⟨⟨1, 1, 1, 5⟩, some "y"⟩]] : List StratCall) ≠ [] ∧
    ∃ rest,
      (EditStrategy.runCalls 0
        [StratCall.atomic [⟨⟨1, 1, 1, 5⟩, some "x"⟩],
         StratCall.progressive [⟨⟨1, 1, 1, 5⟩, some "y"⟩]]).2 =
        DocEvent.undoStop :: rest ∧
      DocEvent.undoStop ∉ rest ∧
      (EditStrategy.runCalls 0
        [StratCall.atomic [⟨⟨1, 1, 1, 5⟩, some "x"⟩],
         StratCall.progressive [⟨⟨1, 1, 1, 5⟩, some "y"⟩]]).2.count
        DocEvent.undoStop = 1 :=
  ⟨by simp,
    editStrategy_single_undo_stop_before_first_edit
      [StratCall.atomic [⟨⟨1, 1, 1, 5⟩, some "x"⟩],
       StratCall.progressive [⟨⟨1, 1, 1, 5⟩, some "y"⟩]] (by simp)⟩

theorem cursorFold_spec (edits : List SingleEditOperation) (l : Position) :
    ∃ p, edits.foldl cursorFoldStep (some l) = some p ∧
      (p = l ∨ ∃ e, e ∈ edits ∧ p = e.range.getEndPosition) ∧
      p.isBefore l = false ∧
      (∀ e, e ∈ edits → p.isBefore e.range.getEndPosition = false) := by
  induction edits generalizing l with
  | nil =>
    exact ⟨l, rfl, Or.inl rfl, isBefore_self_false l, fun e he => absurd he (by simp)⟩
  | cons a rest ih =>
    by_cases hstep : l.isBefore a.range.getEndPosition = true
    · have hfold : (a :: rest).foldl cursorFoldStep (some l) =
          rest.foldl cursorFoldStep (some a.range.getEndPosition) := by
        simp [cursorFoldStep, hstep]
      obtain ⟨p, hp, hmem, hge, hall⟩ := ih a.range.getEndPosition
      refine ⟨p, by rw [hfold]; exact hp, ?_, ?_, ?_⟩
      · rcases hmem with h | ⟨e, he, hpe⟩
        · exact Or.inr ⟨a, by simp, h⟩
        · exact Or.inr ⟨e, by simp [he], hpe⟩
      · exact isBefore_false_trans p a.range.getEndPosition l hge
          (isBefore_false_of_isBefore l a.range.getEndPosition hstep)
      · intro e he
        rcases List.mem_cons.1 he with h | h
        · rw [h]; exact hge
        · exact hall e h
    · have hstep2 : l.isBefore a.range.getEndPosition = false :=
        Bool.not_eq_true _ ▸ Bool.of_not_eq_true hstep
      have hfold : (a :: rest).foldl cursorFoldStep (some l) =
          rest.foldl cursorFoldStep (some l) := by
        simp [cursorFoldStep, hstep2]
      obtain ⟨p, hp, hmem, hge, hall⟩ := ih l
      refine ⟨p, by rw [hfold]; exact hp, ?_, hge, ?_⟩
      · rcases hmem with h | ⟨e, he, hpe⟩
        · exact Or.inl h
        · exact Or.inr ⟨e, by simp [he], hpe⟩
      · intro e he
        rcases List.mem_cons.1 he with h | h
        · rw [h]
          exact isBefore_false_trans p l a.range.getEndPosition hge hstep2
        · exact hall e h

/-- C3: the cursor-state computer of `makeChanges` places the cursor at the
end position of an edit whose end position is greatest among the batch (no
other end position lies strictly after it); in particular, for edits ending
at (1,5), (1,5), (1,10) in that order the computed selection collapses to
(1,10).  On a tie the kept and the candidate end positions are equal, so the
resulting cursor position is the shared maximum either way. -/
theorem makeChanges_cursor_max_end_position
    (undoEdits : List SingleEditOperation) (h : undoEdits ≠ []) :
    (∃ p, cursorStateComputerAndInlineDiffCollection undoEdits =
        some [Selection.fromPositions p] ∧
      (∃ e, e ∈ undoEdits ∧ p = e.range.getEndPosition) ∧
      (∀ e, e ∈ undoEdits → p.isBefore e.range.getEndPosition = false)) ∧
    cursorStateComputerAndInlineDiffCollection
        [⟨⟨1, 1, 1, 5⟩, some "a"⟩, ⟨⟨1, 1, 1, 5⟩, some "b"⟩,
         ⟨⟨1, 1, 1, 10⟩, some "c"⟩] =
      some [Selection.fromPositions ⟨1, 10⟩] := by
  constructor
  · match undoEdits, h with
    | a :: rest, _ =>
      have hfirst : (a :: rest).foldl cursorFoldStep none =
          rest.foldl cursorFoldStep (some a.range.getEndPosition) := rfl
      obtain ⟨p, hp, hmem, hge, hall⟩ := cursorFold_spec rest a.range.getEndPosition
      refine ⟨p, ?_, ?_, ?_⟩
      · simp only [cursorStateComputerAndInlineDiffCollection, hfirst, hp]
        rfl
      · rcases hmem with hm | ⟨e, he, hpe⟩
        · exact ⟨a, by simp, hm⟩
        · exact ⟨e, by simp [he], hpe⟩
      · intro e he
        rcases List.mem_cons.1 he with hm | hm
        · rw [hm]; exact hge
        · exact hall e hm
  · rfl

/-- C3 witness: the theorem at the example batch of the claim. -/
theorem makeChanges_cursor_max_end_position_witness :
    ([⟨⟨1, 1, 1, 5⟩, some "a"⟩, ⟨⟨1, 1, 1, 5⟩, some "b"⟩,
      ⟨⟨1, 1, 1, 10⟩, some "c"⟩] : List SingleEditOperation) ≠ [] ∧
    ((∃ p, cursorStateComputerAndInlineDiffCollection
          [⟨⟨1, 1, 1, 5⟩, some "a"⟩, ⟨⟨1, 1, 1, 5⟩, some "b"⟩,
           ⟨⟨1, 1, 1, 10⟩, some "c"⟩] =
          some [Selection.fromPositions p] ∧
        (∃ e, e ∈ ([⟨⟨1, 1, 1, 5⟩, some "a"⟩, ⟨⟨1, 1, 1, 5⟩, some "b"⟩,
            ⟨⟨1, 1, 1, 10⟩, some "c"⟩] : List SingleEditOperation) ∧
          p = e.range.getEndPosition) ∧
        (∀ e, e ∈ ([⟨⟨1, 1, 1, 5⟩, some "a"⟩, ⟨⟨1, 1, 1, 5⟩, some "b"⟩,
            ⟨⟨1, 1, 1, 10⟩, some "c"⟩] : List SingleEditOperation) →
          p.isBefore e.range.getEndPosition = false)) ∧
      cursorStateComputerAndInlineDiffCollection
          [⟨⟨1, 1, 1, 5⟩, some "a"⟩, ⟨⟨1, 1, 1, 5⟩, some "b"⟩,
           ⟨⟨1, 1, 1, 10⟩, some "c"⟩] =
        some [Selection.fromPositions ⟨1, 10⟩]) :=
  ⟨by simp,
    makeChanges_cursor_max_end_position
      [⟨⟨1, 1, 1, 5⟩, some "a"⟩, ⟨⟨1, 1, 1, 5⟩, some "b"⟩,
       ⟨⟨1, 1, 1, 10⟩, some "c"⟩] (by simp)⟩

theorem foldl_handleEditsChunk_queued (chunks : List ProgressChunk)
    (avg : MovingAverage) (acc : List (Option ℚ)) :
    (chunks.foldl handleEditsChunk ⟨avg, acc⟩).queuedDurations =
      acc ++ durationsFrom avg chunks := by
  induction chunks generalizing avg acc with
  | nil => simp [durationsFrom]
  | cons c cs ih =>
    simp only [List.foldl_cons, handleEditsChunk, durationsFrom]
    rw [ih]
    simp

theorem durationsFrom_get (pre : List ProgressChunk) (avg : MovingAverage)
    (c : ProgressChunk) (post : List ProgressChunk) :
    (durationsFrom avg (pre ++ c :: post)).get? pre.length =
      some (if c.editsShouldBeInstant then none
        else some
          (((pre.map ProgressChunk.sampleMs).foldl MovingAverage.update avg).update
            c.sampleMs).val) := by
  induction pre generalizing avg with
  | nil => simp [durationsFrom]
  | cons p ps ih =>
    simp only [List.cons_append, durationsFrom, List.length_cons, List.get?_cons_succ,
      List.map_cons, List.foldl_cons]
    exact ih (avg.update p.sampleMs)

/-- C4 counterexample: the claim says the inter-arrival sample measured when
batch N arrives sizes the pacing only of batch N+1 and later, never of batch N
itself.  For a single batch arriving after 100ms, the pacing duration handed
to that very batch is the updated average 50, not the pre-batch average
`MovingAverage.initial.val = 0`: the batch's own sample was already
incorporated. -/
theorem pacing_one_batch_lag_counterexample :
    pacingDurations [⟨100, false⟩] = [some 50] ∧
    MovingAverage.initial.val = 0 ∧
    pacingDurations [⟨100, false⟩] ≠ [some MovingAverage.initial.val] := by
  have h1 : pacingDurations [⟨100, false⟩] = [some 50] := by
    simp only [pacingDurations, List.foldl_cons, List.foldl_nil, handleEditsChunk,
      MovingAverage.update, MovingAverage.initial]
    norm_num
  refine ⟨h1, rfl, ?_⟩
  rw [h1]
  norm_num [MovingAverage.initial]

/-- C4 (amended): the progress handler updates the rolling average with a
batch's inter-arrival sample *before* queueing that batch, so the pacing
duration used for batch N is the average over samples 0..N — including batch
N's own sample (no one-batch lag); instant batches get no pacing options. -/
theorem pacing_duration_includes_own_sample (pre : List ProgressChunk)
    (c : ProgressChunk) (post : List ProgressChunk) :
    (pacingDurations (pre ++ c :: post)).get? pre.length =
      some (if c.editsShouldBeInstant then none
        else some (avgValueAfter ((pre ++ [c]).map ProgressChunk.sampleMs))) := by
  have hbridge : pacingDurations (pre ++ c :: post) =
      durationsFrom MovingAverage.initial (pre ++ c :: post) := by
    have := foldl_handleEditsChunk_queued (pre ++ c :: post) MovingAverage.initial []
    simpa [pacingDurations] using this
  rw [hbridge, durationsFrom_get]
  congr 1
  by_cases hi : c.editsShouldBeInstant
  · simp [hi]
  · simp only [hi, if_false, avgValueAfter, List.map_append, List.foldl_append]
    rfl

/-- C5 counterexample: the claim says a rejected provider promise makes
`acceptInput` reset the has-active-request flag and the progress indicator.
In the code the rejection propagates out of the `await` at line 280 before any
reset runs: after the trace both flags are still `true` (and no edits from the
response were applied). -/
theorem acceptInput_rejected_flags_counterexample :
    finalHasActiveRequest (acceptInputEvents 0 0 ProviderReply.rejected) = true ∧
    finalWidgetProgress (acceptInputEvents 0 0 ProviderReply.rejected) = true ∧
    ¬ finalHasActiveRequest (acceptInputEvents 0 0 ProviderReply.rejected) = false ∧
    (acceptInputEvents 0 0 ProviderReply.rejected).all
      (fun e => !e.isMakeChangesCall) = true := by
  decide

/-- C5 (amended): when the provider promise rejects, `acceptInput` throws
right after setting the flags — it applies no edits from the response, and
neither the has-active-request flag nor the progress indicator is reset on
this path (they are reset only on the null-reply and success paths). -/
theorem acceptInput_rejected_propagates_without_reset
    (queueSize progressEditsLen : Nat) :
    acceptInputEvents queueSize progressEditsLen ProviderReply.rejected =
      [CtrlEvent.setHasActiveRequest true, CtrlEvent.updateProgress true,
       CtrlEvent.throwError] ∧
    finalHasActiveRequest
      (acceptInputEvents queueSize progressEditsLen ProviderReply.rejected) = true ∧
    finalWidgetProgress
      (acceptInputEvents queueSize progressEditsLen ProviderReply.rejected) = true ∧
    (acceptInputEvents queueSize progressEditsLen ProviderReply.rejected).all
      (fun e => !e.isMakeChangesCall) = true ∧
    (acceptInputEvents queueSize progressEditsLen ProviderReply.rejected).contains
      CtrlEvent.throwError = true ∧
    finalHasActiveRequest
      (acceptInputEvents queueSize progressEditsLen ProviderReply.nullReply) = false ∧
    finalWidgetProgress
      (acceptInputEvents queueSize progressEditsLen ProviderReply.nullReply) = false := by
  refine ⟨rfl, rfl, rfl, rfl, rfl, ?_, ?_⟩ <;>
    by_cases hq : 0 < queueSize <;>
    simp [acceptInputEvents, finalHasActiveRequest, finalWidgetProgress, hq]

theorem range_drop_eq_map (P len : Nat) :
    (List.range len).drop P = (List.range (len - P)).map (fun k => P + k) := by
  rcases Nat.le_total P len with h | h
  · conv_lhs => rw [show len = P + (len - P) from by omega, List.range_add]
    rw [List.drop_left' (List.length_range P)]
  · rw [List.drop_eq_nil_of_le (by simpa using h),
      show len - P = 0 from by omega]
    simp

theorem filter_makeCalls_map (P : Nat) (ks : List Nat) :
    (ks.map (fun k => CtrlEvent.makeChangesCall (P + k) false)).filter
      CtrlEvent.isMakeChangesCall =
      ks.map (fun k => CtrlEvent.makeChangesCall (P + k) false) := by
  induction ks with
  | nil => rfl
  | cons k ks ih =>
    simp only [List.map_cons, List.filter_cons, CtrlEvent.isMakeChangesCall, if_pos, ih]

/-- C9: on a successful reply, `acceptInput` waits for the progressive-edits
queue to drain (when it is nonempty) and for the progress stream to close
before any further application: every `_makeChanges` call for the final
response comes after the `progressDrained` event, and those calls are exactly
the batches of `allLocalEdits` whose index is at or beyond the number of
progressively delivered batches, in order, each without pacing options. -/
theorem acceptInput_applies_remaining_batches_after_drain
    (queueSize progressEditsLen len : Nat) :
    ∃ pre post,
      acceptInputEvents queueSize progressEditsLen (ProviderReply.reply len) =
        pre ++ CtrlEvent.progressDrained :: post ∧
      pre.all (fun e => !e.isMakeChangesCall) = true ∧
      pre.contains CtrlEvent.waitQueueDrained = decide (0 < queueSize) ∧
      post.filter CtrlEvent.isMakeChangesCall =
        ((List.range len).drop progressEditsLen).map
          (fun i => CtrlEvent.makeChangesCall i false) := by
  refine ⟨[CtrlEvent.setHasActiveRequest true, CtrlEvent.updateProgress true] ++
      (if 0 < queueSize then [CtrlEvent.waitQueueDrained] else []),
    (List.range (len - progressEditsLen)).map
        (fun k => CtrlEvent.makeChangesCall (progressEditsLen + k) false) ++
      [CtrlEvent.setHasActiveRequest false, CtrlEvent.updateProgress false,
       CtrlEvent.updateInfoCleared, CtrlEvent.updateToolbarShown],
    ?_, ?_, ?_, ?_⟩
  · by_cases hq : 0 < queueSize <;> simp [acceptInputEvents, hq]
  · by_cases hq : 0 < queueSize <;> simp [hq, CtrlEvent.isMakeChangesCall]
  · by_cases hq : 0 < queueSize <;> simp [hq]
  · rw [List.filter_append, filter_makeCalls_map, range_drop_eq_map, List.map_map]
    rw [show (List.filter CtrlEvent.isMakeChangesCall
        [CtrlEvent.setHasActiveRequest false, CtrlEvent.updateProgress false,
         CtrlEvent.updateInfoCleared, CtrlEvent.updateToolbarShown]) =
        ([] : List CtrlEvent) from rfl, List.append_nil]
    rfl
